import Mathlib

/-!
# Verification of the rlox lexer (`src/lexer.rs`)

Shallow embedding of the scanner: the `Token` type, the stateful `Cursor`
(remaining characters, 1-based line, column, previously consumed character),
the per-lexeme scan helpers (`string`, `number`, `identifier`, `take_while`),
the dispatch `advance_token`, and the driver `tokenize`.

Characters are Lean `Char`s, the remaining input is a `List Char`, and the
numeric payload of number tokens is an exact rational (the floating-point
value of the Rust code is the rounding of this rational; no claim here
depends on rounding).
-/

namespace Lox

/-- Model of Rust's `char::is_whitespace` (the Unicode `White_Space`
property): U+0009..U+000D, U+0020, U+0085, U+00A0, U+1680, U+2000..U+200A,
U+2028, U+2029, U+202F, U+205F, U+3000. -/
def rustIsWhitespace (ch : Char) : Bool :=
  decide (ch = ' ') || decide (ch = '\t') || decide (ch = '\n') ||
  decide (ch.toNat = 0x0B) || decide (ch.toNat = 0x0C) || decide (ch = '\r') ||
  decide (ch.toNat = 0x85) || decide (ch.toNat = 0xA0) ||
  decide (ch.toNat = 0x1680) ||
  (decide (0x2000 ≤ ch.toNat) && decide (ch.toNat ≤ 0x200A)) ||
  decide (ch.toNat = 0x2028) || decide (ch.toNat = 0x2029) ||
  decide (ch.toNat = 0x202F) || decide (ch.toNat = 0x205F) ||
  decide (ch.toNat = 0x3000)

/-- The token type of `src/lexer.rs` (`enum Token`).  Keyword variants are
prefixed with `kw` because their Rust names collide with Lean keywords.
`number` carries the exact rational value of the parsed lexeme. -/
inductive Token where
  | leftParen | rightParen | leftBrace | rightBrace
  | comma | dot | minus | plus | semicolon | slash | star
  | bang | bangEqual | equal | equalEqual
  | greater | greaterEqual | less | lessEqual
  | ident (s : String)
  | string (s : String)
  | number (v : ℚ)
  | kwAnd | kwClass | kwElse | kwFalse | kwFun | kwFor | kwIf | kwNil
  | kwOr | kwPrint | kwSuper | kwReturn | kwThis | kwTrue | kwVar | kwWhile
  | eof
  | unknown
  | unexpected (line : Nat) (col : Nat)
  | comment (s : String)
  | whitespace
  deriving DecidableEq, Repr

/-- `const EOF_CHAR: char = '\0';` -/
def EOF_CHAR : Char := Char.ofNat 0

/-- The scanner state (`struct Cursor`): remaining characters, current line,
current column, and the previously consumed character. -/
structure Cursor where
  input : List Char
  line : Nat
  col : Nat
  prev : Char
  deriving DecidableEq, Repr

/-- `Cursor::new`: line 1, column 0, previous character the EOF sentinel. -/
def Cursor.new (input : List Char) : Cursor :=
  { input := input, line := 1, col := 0, prev := EOF_CHAR }

/-- The position bookkeeping at the top of `Cursor::next`: if the previously
consumed character was a newline, advance the line and reset the column to 0
before the unconditional column increment. -/
def bumpPos (line col : Nat) (prev : Char) : Nat × Nat :=
  if prev = '\n' then (line + 1, 0 + 1) else (line, col + 1)

/-- `Cursor::next`: update line/column from the previously consumed
character, consume one character (recording it as `prev`; the EOF sentinel
when the input is empty), and return it. -/
def Cursor.next (c : Cursor) : Option Char × Cursor :=
  let lc := bumpPos c.line c.col c.prev
  match c.input with
  | [] => (none, { input := [], line := lc.1, col := lc.2, prev := EOF_CHAR })
  | x :: xs => (some x, { input := xs, line := lc.1, col := lc.2, prev := x })

/-- `Cursor::peek`: the next unconsumed character, without advancing. -/
def Cursor.peek (c : Cursor) : Option Char :=
  c.input.head?

/-- `Cursor::next_matches`: consume the next character exactly when it
equals `expected`, reporting whether it did. -/
def Cursor.next_matches (c : Cursor) (expected : Char) : Bool × Cursor :=
  match c.peek with
  | some actual =>
      if actual = expected then (true, (c.next).2) else (false, c)
  | none => (false, c)

/-- The loop of `Cursor::take_while`, with the `FnMut` closure modelled as a
state-passing predicate `p : σ → Char → Bool × σ`: peek at the next
character, stop if the predicate rejects it, otherwise record it and consume
it (with exactly the `Cursor::next` bookkeeping, `bumpPos`).  Structured as
recursion over the remaining input so that it computes by `decide`/`rfl`. -/
def takeWhileGo {σ : Type} (p : σ → Char → Bool × σ) :
    σ → List Char → Nat → Nat → Char → List Char × Cursor
  | _, [], line, col, prev => ([], { input := [], line := line, col := col, prev := prev })
  | s, x :: xs, line, col, prev =>
    let bs := p s x
    if bs.1 then
      let lc := bumpPos line col prev
      let rc := takeWhileGo p bs.2 xs lc.1 lc.2 x
      (x :: rc.1, rc.2)
    else ([], { input := x :: xs, line := line, col := col, prev := prev })

/-- `Cursor::take_while` with a stateful (`FnMut`) predicate. -/
def Cursor.takeWhileM {σ : Type} (c : Cursor) (p : σ → Char → Bool × σ) (s : σ) :
    List Char × Cursor :=
  takeWhileGo p s c.input c.line c.col c.prev

/-- `Cursor::take_while` with a pure predicate (the identifier and comment
scans capture no mutable state). -/
def Cursor.take_while (c : Cursor) (p : Char → Bool) : List Char × Cursor :=
  c.takeWhileM (fun _ ch => (p ch, ())) ()

/-- `Cursor::eat_while`: same loop as `take_while`, discarding the run. -/
def Cursor.eat_while (c : Cursor) (p : Char → Bool) : Cursor :=
  (c.take_while p).2

/-- `Cursor::is_alpha`: ASCII letter or underscore. -/
def is_alpha (ch : Char) : Bool :=
  ch.isAlpha || decide (ch = '_')

/-- `Cursor::is_alphanumeric`: ASCII letter, underscore, or decimal digit. -/
def is_alphanumeric (ch : Char) : Bool :=
  is_alpha ch || ch.isDigit

/-- The reserved-word match at the end of `Cursor::identifier`: the
completed lexeme is compared, in full, against each of the sixteen reserved
words; anything else becomes an identifier token carrying the lexeme. -/
def keywordMatch (id : String) : Token :=
  if id = "and" then .kwAnd
  else if id = "class" then .kwClass
  else if id = "else" then .kwElse
  else if id = "false" then .kwFalse
  else if id = "for" then .kwFor
  else if id = "fun" then .kwFun
  else if id = "if" then .kwIf
  else if id = "nil" then .kwNil
  else if id = "or" then .kwOr
  else if id = "print" then .kwPrint
  else if id = "return" then .kwReturn
  else if id = "super" then .kwSuper
  else if id = "this" then .kwThis
  else if id = "true" then .kwTrue
  else if id = "var" then .kwVar
  else if id = "while" then .kwWhile
  else .ident id

/-- `Cursor::identifier`: maximal run of letters/digits/underscores after
the first character, then the reserved-word match on the full lexeme. -/
def Cursor.identifier (c : Cursor) (first_char : Char) : Token × Cursor :=
  let rc := c.take_while is_alphanumeric
  (keywordMatch (String.mk (first_char :: rc.1)), rc.2)

/-- Numeric value of a digit run, most significant digit first. -/
def digitsVal (l : List Char) : Nat :=
  l.foldl (fun a ch => 10 * a + (ch.toNat - 48)) 0

/-- Model of Rust's `str::parse::<f64>` on the lexemes the number scan can
build (characters drawn from ASCII digits and `.`): parsing succeeds iff
the lexeme contains at least one digit and at most one dot, and the value
is the exact decimal rational (`f64` rounding is abstracted away). -/
def parseDecimal? (s : List Char) : Option ℚ :=
  if (s.all fun ch => ch.isDigit || decide (ch = '.')) = true
      ∧ s.countP (fun ch => decide (ch = '.')) ≤ 1
      ∧ (s.any Char.isDigit) = true then
    let ip := s.takeWhile fun ch => decide (ch ≠ '.')
    let fp := (s.dropWhile fun ch => decide (ch ≠ '.')).tail
    let den := Nat.pow 10 fp.length
    some (mkRat (Int.ofNat (digitsVal ip * den + digitsVal fp)) den)
  else
    none

/-- The stateful predicate of the `take_while` inside `Cursor::number`: the
captured `has_dot` flag admits a digit always, and a dot only if no dot has
been accepted yet. -/
def numPred (has_dot : Bool) (ch : Char) : Bool × Bool :=
  if ch.isDigit then (true, has_dot)
  else if ch = '.' ∧ has_dot = false then (true, true)
  else (false, has_dot)

/-- `Cursor::number`: collect the run after the first digit, parse the full
lexeme, and emit a number token — or the guarded `Unknown` fallback if the
parse were to fail. -/
def Cursor.number (c : Cursor) (first_char : Char) : Token × Cursor :=
  let rc := c.takeWhileM numPred false
  match parseDecimal? (first_char :: rc.1) with
  | some v => (.number v, rc.2)
  | none => (.unknown, rc.2)

/-- The stateful predicate of the `take_while` inside `Cursor::string`: a
character continues the run if the previous character of the run was a
backslash or it is not a double quote; the new state records whether this
character is a backslash. -/
def escPred (escaped : Bool) (ch : Char) : Bool × Bool :=
  (escaped || decide (ch ≠ '"'), decide (ch = '\\'))

/-- `Cursor::string`: collect the body run; if the next character is not a
closing quote, emit `Unexpected` with the current line and column + 1 and
consume nothing further; otherwise consume the quote and emit the string. -/
def Cursor.string (c : Cursor) : Token × Cursor :=
  let rc := c.takeWhileM escPred false
  if rc.2.peek ≠ some '"' then
    (.unexpected rc.2.line (rc.2.col + 1), rc.2)
  else
    (.string (String.mk rc.1), ((rc.2).next).2)

/-- The match body of `Cursor::advance_token` once a first character `fc`
has been consumed (cursor `c1` is the state just after consuming it). -/
def dispatch (fc : Char) (c1 : Cursor) : Token × Cursor :=
  if rustIsWhitespace fc then (.whitespace, c1.eat_while rustIsWhitespace)
    else if fc = '(' then (.leftParen, c1)
    else if fc = ')' then (.rightParen, c1)
    else if fc = '{' then (.leftBrace, c1)
    else if fc = '}' then (.rightBrace, c1)
    else if fc = ',' then (.comma, c1)
    else if fc = '.' then (.dot, c1)
    else if fc = '-' then (.minus, c1)
    else if fc = '+' then (.plus, c1)
    else if fc = ';' then (.semicolon, c1)
    else if fc = '*' then (.star, c1)
    else if fc = '!' then
      let mc := c1.next_matches '='
      (if mc.1 then .bangEqual else .bang, mc.2)
    else if fc = '=' then
      let mc := c1.next_matches '='
      (if mc.1 then .equalEqual else .equal, mc.2)
    else if fc = '<' then
      let mc := c1.next_matches '='
      (if mc.1 then .lessEqual else .less, mc.2)
    else if fc = '>' then
      let mc := c1.next_matches '='
      (if mc.1 then .greaterEqual else .greater, mc.2)
    else if fc = '/' then
      let mc := c1.next_matches '/'
      if mc.1 then
        let rc := mc.2.take_while fun ch => decide (ch ≠ '\n')
        (.comment (String.mk rc.1), rc.2)
      else (.slash, mc.2)
    else if fc = '"' then c1.string
    else if fc.isDigit then c1.number fc
    else if is_alpha fc then c1.identifier fc
    else (.unknown, c1)

/-- `Cursor::advance_token`: consume the first character and dispatch on it;
on empty input, produce the EOF sentinel. -/
def Cursor.advance_token (c : Cursor) : Token × Cursor :=
  match c.next with
  | (none, c1) => (.eof, c1)
  | (some fc, c1) => dispatch fc c1

/-- The loop of `tokenize`: repeatedly advance, stopping at (and not
yielding) the EOF sentinel.  The fuel argument makes the recursion
structural; `tokenize` supplies `input.length + 1`, which is proved
sufficient (`tokenizeLoop_fuel_irrelevant`). -/
def tokenizeLoop : Nat → Cursor → List Token
  | 0, _ => []
  | n + 1, c =>
    let tc := c.advance_token
    if tc.1 = .eof then [] else tc.1 :: tokenizeLoop n tc.2

/-- `tokenize`: the whole token sequence of an input. -/
def tokenize (input : List Char) : List Token :=
  tokenizeLoop (input.length + 1) (Cursor.new input)

/-!
## Specification-side notions

Pure counterparts used to state the claims: the honest 1-based source
position (`posAfter`), the cursor state reached after consuming a given
prefix (`cursorAfter`), and a pure runner for the stateful `take_while`
predicates (`listRun`).
-/

/-- Honest position advance: a newline moves to column 1 of the next line,
any other character moves one column to the right. -/
def posStep (lc : Nat × Nat) (ch : Char) : Nat × Nat :=
  if ch = '\n' then (lc.1 + 1, 1) else (lc.1, lc.2 + 1)

/-- The honest 1-based position of the character that follows the consumed
prefix `pre` (starting at line 1, column 1). -/
def posAfter (pre : List Char) : Nat × Nat :=
  pre.foldl posStep (1, 1)

/-- One step of the cursor's lazy bookkeeping as a pure function on
(line, col, prev). -/
def scanStep (st : Nat × Nat × Char) (ch : Char) : Nat × Nat × Char :=
  ((bumpPos st.1 st.2.1 st.2.2).1, (bumpPos st.1 st.2.1 st.2.2).2, ch)

/-- The (line, col, prev) triple of the cursor after consuming `pre`. -/
def scanState (pre : List Char) : Nat × Nat × Char :=
  pre.foldl scanStep (1, 0, EOF_CHAR)

/-- The cursor state reached from `Cursor.new (pre ++ rest)` after the
characters of `pre` have been consumed. -/
def cursorAfter (pre rest : List Char) : Cursor :=
  { input := rest, line := (scanState pre).1, col := (scanState pre).2.1,
    prev := (scanState pre).2.2 }

/-- The pending-adjustment view of the cursor position: applying the lazy
newline bookkeeping to (line, col, prev) yields the position of the
character about to be consumed next. -/
def Cursor.nextPos (c : Cursor) : Nat × Nat :=
  bumpPos c.line c.col c.prev

/-- Consume `n` characters through the `Cursor.next` primitive. -/
def Cursor.consumeN (c : Cursor) : Nat → Cursor
  | 0 => c
  | n + 1 => ((c.next).2).consumeN n

/-- Pure runner for a stateful `take_while` predicate on a character list:
the accepted run and the untouched remainder. -/
def listRun {σ : Type} (p : σ → Char → Bool × σ) : σ → List Char → List Char × List Char
  | _, [] => ([], [])
  | s, x :: xs =>
    let bs := p s x
    if bs.1 then
      let rr := listRun p bs.2 xs
      (x :: rr.1, rr.2)
    else ([], x :: xs)

/-!
## Basic lemmas about the scan loop
-/

theorem takeWhileGo_input_le {σ : Type} (p : σ → Char → Bool × σ) :
    ∀ (l : List Char) (s : σ) (line col : Nat) (prev : Char),
      (takeWhileGo p s l line col prev).2.input.length ≤ l.length := by
  intro l
  induction l with
  | nil => intro s line col prev; simp [takeWhileGo]
  | cons x xs ih =>
    intro s line col prev
    by_cases h : (p s x).1
    · simpa [takeWhileGo, h] using le_trans (ih _ _ _ _) (Nat.le_succ _)
    · simp [takeWhileGo, h]

theorem takeWhileM_input_le {σ : Type} (c : Cursor) (p : σ → Char → Bool × σ) (s : σ) :
    (c.takeWhileM p s).2.input.length ≤ c.input.length :=
  takeWhileGo_input_le p c.input s c.line c.col c.prev

theorem take_while_input_le (c : Cursor) (p : Char → Bool) :
    (c.take_while p).2.input.length ≤ c.input.length :=
  takeWhileM_input_le c _ ()

theorem eat_while_input_le (c : Cursor) (p : Char → Bool) :
    (c.eat_while p).input.length ≤ c.input.length :=
  take_while_input_le c p

theorem next_snd_input (c : Cursor) : ((c.next).2).input = c.input.tail := by
  unfold Cursor.next
  cases c.input <;> rfl

theorem next_matches_input_le (c : Cursor) (expected : Char) :
    (c.next_matches expected).2.input.length ≤ c.input.length := by
  unfold Cursor.next_matches Cursor.peek
  cases h : c.input.head? with
  | none => simp
  | some a =>
    by_cases ha : a = expected
    · simp [ha, next_snd_input, List.length_tail, Nat.sub_le]
    · simp [ha]

theorem string_input_le (c : Cursor) :
    (c.string).2.input.length ≤ c.input.length := by
  unfold Cursor.string
  by_cases h : (c.takeWhileM escPred false).2.peek ≠ some '"'
  · simpa [h] using takeWhileM_input_le c escPred false
  · rw [if_neg h]
    rw [show (((c.takeWhileM escPred false).2.next).2) = _ from rfl, next_snd_input]
    calc (c.takeWhileM escPred false).2.input.tail.length
        ≤ (c.takeWhileM escPred false).2.input.length := by
          rw [List.length_tail]; exact Nat.sub_le _ _
      _ ≤ c.input.length := takeWhileM_input_le c escPred false

theorem number_input_le (c : Cursor) (fc : Char) :
    (c.number fc).2.input.length ≤ c.input.length := by
  unfold Cursor.number
  cases h : parseDecimal? (fc :: (c.takeWhileM numPred false).1) <;>
    simpa [h] using takeWhileM_input_le c numPred false

theorem identifier_input_le (c : Cursor) (fc : Char) :
    (c.identifier fc).2.input.length ≤ c.input.length := by
  unfold Cursor.identifier
  simpa using take_while_input_le c is_alphanumeric

/-- The sixteen reserved words of the language, as listed in the spec. -/
def reservedWords : List String :=
  ["and", "class", "else", "false", "fun", "for", "if", "nil",
   "or", "print", "return", "super", "this", "true", "var", "while"]

/-- The sixteen keyword token variants. -/
def kwTokens : List Token :=
  [.kwAnd, .kwClass, .kwElse, .kwFalse, .kwFor, .kwFun, .kwIf, .kwNil,
   .kwOr, .kwPrint, .kwReturn, .kwSuper, .kwThis, .kwTrue, .kwVar, .kwWhile]

theorem keywordMatch_cases (id : String) :
    (id ∉ reservedWords ∧ keywordMatch id = .ident id) ∨
    (id ∈ reservedWords ∧ keywordMatch id ∈ kwTokens) := by
  by_cases h : id ∈ reservedWords
  · right
    refine ⟨h, ?_⟩
    fin_cases h <;> decide
  · left
    refine ⟨h, ?_⟩
    have n1 : ¬ id = "and" := fun he => h (by rw [he]; decide)
    have n2 : ¬ id = "class" := fun he => h (by rw [he]; decide)
    have n3 : ¬ id = "else" := fun he => h (by rw [he]; decide)
    have n4 : ¬ id = "false" := fun he => h (by rw [he]; decide)
    have n5 : ¬ id = "for" := fun he => h (by rw [he]; decide)
    have n6 : ¬ id = "fun" := fun he => h (by rw [he]; decide)
    have n7 : ¬ id = "if" := fun he => h (by rw [he]; decide)
    have n8 : ¬ id = "nil" := fun he => h (by rw [he]; decide)
    have n9 : ¬ id = "or" := fun he => h (by rw [he]; decide)
    have n10 : ¬ id = "print" := fun he => h (by rw [he]; decide)
    have n11 : ¬ id = "return" := fun he => h (by rw [he]; decide)
    have n12 : ¬ id = "super" := fun he => h (by rw [he]; decide)
    have n13 : ¬ id = "this" := fun he => h (by rw [he]; decide)
    have n14 : ¬ id = "true" := fun he => h (by rw [he]; decide)
    have n15 : ¬ id = "var" := fun he => h (by rw [he]; decide)
    have n16 : ¬ id = "while" := fun he => h (by rw [he]; decide)
    unfold keywordMatch
    rw [if_neg n1, if_neg n2, if_neg n3, if_neg n4, if_neg n5, if_neg n6,
      if_neg n7, if_neg n8, if_neg n9, if_neg n10, if_neg n11, if_neg n12,
      if_neg n13, if_neg n14, if_neg n15, if_neg n16]

theorem kwTokens_ne_eof : ∀ t ∈ kwTokens, t ≠ .eof := by decide

theorem kwTokens_ne_ident {t : Token} (ht : t ∈ kwTokens) :
    ∀ s, t ≠ .ident s := by
  fin_cases ht <;> exact fun s hx => Token.noConfusion hx

theorem keywordMatch_ne_eof (id : String) : keywordMatch id ≠ .eof := by
  rcases keywordMatch_cases id with ⟨_, he⟩ | ⟨_, hm⟩
  · rw [he]; exact fun hx => Token.noConfusion hx
  · exact kwTokens_ne_eof _ hm

theorem keywordMatch_eq_ident {id s : String} (h : keywordMatch id = .ident s) :
    s = id ∧ id ∉ reservedWords := by
  rcases keywordMatch_cases id with ⟨hn, he⟩ | ⟨hm, hk⟩
  · exact ⟨(Token.ident.inj (he.symm.trans h)).symm, hn⟩
  · exact absurd h (kwTokens_ne_ident hk s)

theorem keywordMatch_of_not_mem {id : String} (h : id ∉ reservedWords) :
    keywordMatch id = .ident id := by
  rcases keywordMatch_cases id with ⟨_, he⟩ | ⟨hm, _⟩
  · exact he
  · exact absurd hm h

theorem keywordMatch_mem_ne_ident {id : String} (h : id ∈ reservedWords) :
    ∀ s, keywordMatch id ≠ .ident s :=
  fun _ hx => absurd h (keywordMatch_eq_ident hx).2

theorem string_fst_ne_eof (c : Cursor) : (c.string).1 ≠ .eof := by
  simp only [Cursor.string]
  by_cases h : (c.takeWhileM escPred false).2.peek ≠ some '"'
  · rw [if_pos h]; exact fun hx => Token.noConfusion hx
  · rw [if_neg h]; exact fun hx => Token.noConfusion hx

theorem number_fst_ne_eof (c : Cursor) (fc : Char) : (c.number fc).1 ≠ .eof := by
  simp only [Cursor.number]
  cases h : parseDecimal? (fc :: (c.takeWhileM numPred false).1) <;>
    exact fun hx => Token.noConfusion hx

theorem identifier_fst_ne_eof (c : Cursor) (fc : Char) : (c.identifier fc).1 ≠ .eof := by
  simp only [Cursor.identifier]
  exact keywordMatch_ne_eof _

theorem string_fst_ne_ident (c : Cursor) (s : String) : (c.string).1 ≠ .ident s := by
  simp only [Cursor.string]
  by_cases h : (c.takeWhileM escPred false).2.peek ≠ some '"'
  · rw [if_pos h]; exact fun hx => Token.noConfusion hx
  · rw [if_neg h]; exact fun hx => Token.noConfusion hx

theorem number_fst_ne_ident (c : Cursor) (fc : Char) (s : String) :
    (c.number fc).1 ≠ .ident s := by
  simp only [Cursor.number]
  cases h : parseDecimal? (fc :: (c.takeWhileM numPred false).1) <;>
    exact fun hx => Token.noConfusion hx

theorem dispatch_master (fc : Char) (c1 : Cursor) :
    (dispatch fc c1).2.input.length ≤ c1.input.length ∧
    (dispatch fc c1).1 ≠ .eof ∧
    (∀ s, (dispatch fc c1).1 = .ident s →
      is_alpha fc = true ∧ dispatch fc c1 = c1.identifier fc) := by
  simp only [dispatch]
  by_cases h1 : rustIsWhitespace fc = true
  · rw [if_pos h1]
    exact ⟨eat_while_input_le c1 rustIsWhitespace,
      fun hx => Token.noConfusion hx, fun s hx => Token.noConfusion hx⟩
  rw [if_neg h1]
  by_cases h2 : fc = '('
  · rw [if_pos h2]
    exact ⟨le_refl _, fun hx => Token.noConfusion hx, fun s hx => Token.noConfusion hx⟩
  rw [if_neg h2]
  by_cases h3 : fc = ')'
  · rw [if_pos h3]
    exact ⟨le_refl _, fun hx => Token.noConfusion hx, fun s hx => Token.noConfusion hx⟩
  rw [if_neg h3]
  by_cases h4 : fc = '{'
  · rw [if_pos h4]
    exact ⟨le_refl _, fun hx => Token.noConfusion hx, fun s hx => Token.noConfusion hx⟩
  rw [if_neg h4]
  by_cases h5 : fc = '}'
  · rw [if_pos h5]
    exact ⟨le_refl _, fun hx => Token.noConfusion hx, fun s hx => Token.noConfusion hx⟩
  rw [if_neg h5]
  by_cases h6 : fc = ','
  · rw [if_pos h6]
    exact ⟨le_refl _, fun hx => Token.noConfusion hx, fun s hx => Token.noConfusion hx⟩
  rw [if_neg h6]
  by_cases h7 : fc = '.'
  · rw [if_pos h7]
    exact ⟨le_refl _, fun hx => Token.noConfusion hx, fun s hx => Token.noConfusion hx⟩
  rw [if_neg h7]
  by_cases h8 : fc = '-'
  · rw [if_pos h8]
    exact ⟨le_refl _, fun hx => Token.noConfusion hx, fun s hx => Token.noConfusion hx⟩
  rw [if_neg h8]
  by_cases h9 : fc = '+'
  · rw [if_pos h9]
    exact ⟨le_refl _, fun hx => Token.noConfusion hx, fun s hx => Token.noConfusion hx⟩
  rw [if_neg h9]
  by_cases h10 : fc = ';'
  · rw [if_pos h10]
    exact ⟨le_refl _, fun hx => Token.noConfusion hx, fun s hx => Token.noConfusion hx⟩
  rw [if_neg h10]
  by_cases h11 : fc = '*'
  · rw [if_pos h11]
    exact ⟨le_refl _, fun hx => Token.noConfusion hx, fun s hx => Token.noConfusion hx⟩
  rw [if_neg h11]
  by_cases h12 : fc = '!'
  · rw [if_pos h12]
    refine ⟨next_matches_input_le c1 '=', ?_, fun s hx => ?_⟩
    · cases hb : (c1.next_matches '=').1 <;> simp [hb]
    · revert hx
      cases hb : (c1.next_matches '=').1 <;> simp [hb]
  rw [if_neg h12]
  by_cases h13 : fc = '='
  · rw [if_pos h13]
    refine ⟨next_matches_input_le c1 '=', ?_, fun s hx => ?_⟩
    · cases hb : (c1.next_matches '=').1 <;> simp [hb]
    · revert hx
      cases hb : (c1.next_matches '=').1 <;> simp [hb]
  rw [if_neg h13]
  by_cases h14 : fc = '<'
  · rw [if_pos h14]
    refine ⟨next_matches_input_le c1 '=', ?_, fun s hx => ?_⟩
    · cases hb : (c1.next_matches '=').1 <;> simp [hb]
    · revert hx
      cases hb : (c1.next_matches '=').1 <;> simp [hb]
  rw [if_neg h14]
  by_cases h15 : fc = '>'
  · rw [if_pos h15]
    refine ⟨next_matches_input_le c1 '=', ?_, fun s hx => ?_⟩
    · cases hb : (c1.next_matches '=').1 <;> simp [hb]
    · revert hx
      cases hb : (c1.next_matches '=').1 <;> simp [hb]
  rw [if_neg h15]
  by_cases h16 : fc = '/'
  · rw [if_pos h16]
    by_cases hb : (c1.next_matches '/').1 = true
    · rw [if_pos hb]
      exact ⟨le_trans (take_while_input_le _ _) (next_matches_input_le c1 '/'),
        fun hx => Token.noConfusion hx, fun s hx => Token.noConfusion hx⟩
    · rw [if_neg hb]
      exact ⟨next_matches_input_le c1 '/',
        fun hx => Token.noConfusion hx, fun s hx => Token.noConfusion hx⟩
  rw [if_neg h16]
  by_cases h17 : fc = '"'
  · rw [if_pos h17]
    exact ⟨string_input_le c1, string_fst_ne_eof c1,
      fun s hx => absurd hx (string_fst_ne_ident c1 s)⟩
  rw [if_neg h17]
  by_cases h18 : fc.isDigit = true
  · rw [if_pos h18]
    exact ⟨number_input_le c1 fc, number_fst_ne_eof c1 fc,
      fun s hx => absurd hx (number_fst_ne_ident c1 fc s)⟩
  rw [if_neg h18]
  by_cases h19 : is_alpha fc = true
  · rw [if_pos h19]
    exact ⟨identifier_input_le c1 fc, identifier_fst_ne_eof c1 fc,
      fun s _ => ⟨h19, rfl⟩⟩
  rw [if_neg h19]
  exact ⟨le_refl _, fun hx => Token.noConfusion hx, fun s hx => Token.noConfusion hx⟩

theorem dispatch_input_le (fc : Char) (c1 : Cursor) :
    (dispatch fc c1).2.input.length ≤ c1.input.length :=
  (dispatch_master fc c1).1

theorem dispatch_fst_ne_eof (fc : Char) (c1 : Cursor) :
    (dispatch fc c1).1 ≠ .eof :=
  (dispatch_master fc c1).2.1

theorem dispatch_fst_ident {fc : Char} {c1 : Cursor} {s : String}
    (h : (dispatch fc c1).1 = .ident s) :
    is_alpha fc = true ∧ dispatch fc c1 = c1.identifier fc :=
  (dispatch_master fc c1).2.2 s h

theorem advance_token_cons (c : Cursor) (x : Char) (xs : List Char)
    (h : c.input = x :: xs) :
    c.advance_token = dispatch x ((c.next).2) := by
  obtain ⟨ci, li, co, pr⟩ := c
  replace h : ci = x :: xs := h
  subst h
  rfl

theorem advance_token_eof_of_nil (c : Cursor) (h : c.input = []) :
    (c.advance_token).1 = .eof ∧ (c.advance_token).2.input = [] := by
  obtain ⟨ci, li, co, pr⟩ := c
  replace h : ci = [] := h
  subst h
  exact ⟨rfl, rfl⟩

theorem advance_token_lt (c : Cursor) (h : c.input ≠ []) :
    (c.advance_token).2.input.length < c.input.length ∧ (c.advance_token).1 ≠ .eof := by
  obtain ⟨x, xs, hx⟩ := List.exists_cons_of_ne_nil h
  rw [advance_token_cons c x xs hx]
  have h2 : ((c.next).2).input = xs := by rw [next_snd_input, hx]; rfl
  refine ⟨?_, dispatch_fst_ne_eof x _⟩
  calc (dispatch x ((c.next).2)).2.input.length
      ≤ ((c.next).2).input.length := dispatch_input_le _ _
    _ = xs.length := by rw [h2]
    _ < c.input.length := by rw [hx]; simp

theorem tokenizeLoop_eof_not_mem : ∀ (n : Nat) (c : Cursor), Token.eof ∉ tokenizeLoop n c := by
  intro n
  induction n with
  | zero => intro c; simp [tokenizeLoop]
  | succ n ih =>
    intro c
    simp only [tokenizeLoop]
    by_cases h : (c.advance_token).1 = .eof
    · simp [h]
    · rw [if_neg h]
      intro hmem
      rcases List.mem_cons.mp hmem with he | hm
      · exact h he.symm
      · exact ih _ hm

theorem tokenizeLoop_length_le : ∀ (n : Nat) (c : Cursor),
    (tokenizeLoop n c).length ≤ c.input.length := by
  intro n
  induction n with
  | zero => intro c; simp [tokenizeLoop]
  | succ n ih =>
    intro c
    simp only [tokenizeLoop]
    by_cases h : (c.advance_token).1 = .eof
    · simp [h]
    · rw [if_neg h]
      have hne : c.input ≠ [] := fun hnil => h (advance_token_eof_of_nil c hnil).1
      have hlt := (advance_token_lt c hne).1
      have hih := ih (c.advance_token).2
      simp only [List.length_cons]
      omega

theorem tokenizeLoop_fuel_irrelevant :
    ∀ (n m : Nat) (c : Cursor), c.input.length < n → c.input.length < m →
      tokenizeLoop n c = tokenizeLoop m c := by
  intro n
  induction n with
  | zero => intro m c hn _; exact absurd hn (Nat.not_lt_zero _)
  | succ n ih =>
    intro m c hn hm
    cases m with
    | zero => exact absurd hm (Nat.not_lt_zero _)
    | succ m =>
      simp only [tokenizeLoop]
      by_cases h : (c.advance_token).1 = .eof
      · rw [if_pos h, if_pos h]
      · rw [if_neg h, if_neg h]
        have hne : c.input ≠ [] := fun hnil => h (advance_token_eof_of_nil c hnil).1
        have hlt := (advance_token_lt c hne).1
        have h1 : ((c.advance_token).2).input.length < n := by omega
        have h2 : ((c.advance_token).2).input.length < m := by omega
        rw [ih m _ h1 h2]

/-!
## The cursorAfter / position bridge
-/

theorem scanState_append (pre : List Char) (x : Char) :
    scanState (pre ++ [x]) = scanStep (scanState pre) x := by
  simp [scanState, List.foldl_append]

theorem posAfter_append (pre : List Char) (x : Char) :
    posAfter (pre ++ [x]) = posStep (posAfter pre) x := by
  simp [posAfter, List.foldl_append]

theorem next_cursorAfter (pre rest : List Char) (x : Char) :
    (cursorAfter pre (x :: rest)).next = (some x, cursorAfter (pre ++ [x]) rest) := by
  simp only [cursorAfter, Cursor.next, scanState_append, scanStep]

theorem bumpPos_foldl (pre : List Char) : ∀ (st : Nat × Nat × Char),
    bumpPos (pre.foldl scanStep st).1 (pre.foldl scanStep st).2.1
        (pre.foldl scanStep st).2.2
      = pre.foldl posStep (bumpPos st.1 st.2.1 st.2.2) := by
  induction pre with
  | nil => intro st; rfl
  | cons x xs ih =>
    intro st
    simp only [List.foldl_cons]
    rw [ih (scanStep st x)]
    rfl

theorem nextPos_cursorAfter (pre rest : List Char) :
    (cursorAfter pre rest).nextPos = posAfter pre := by
  have h := bumpPos_foldl pre (1, 0, EOF_CHAR)
  exact h

theorem consumeN_cursorAfter_general :
    ∀ (pre q rest : List Char),
      (cursorAfter q (pre ++ rest)).consumeN pre.length = cursorAfter (q ++ pre) rest := by
  intro pre
  induction pre with
  | nil => intro q rest; simp [Cursor.consumeN]
  | cons x xs ih =>
    intro q rest
    have hn : (cursorAfter q (x :: (xs ++ rest))).next
        = (some x, cursorAfter (q ++ [x]) (xs ++ rest)) := next_cursorAfter q (xs ++ rest) x
    simp only [List.length_cons, List.cons_append, Cursor.consumeN, hn]
    rw [ih (q ++ [x]) rest]
    simp

theorem new_eq_cursorAfter_nil (input : List Char) :
    Cursor.new input = cursorAfter [] input := rfl

theorem consumeN_cursorAfter (pre rest : List Char) :
    (Cursor.new (pre ++ rest)).consumeN pre.length = cursorAfter pre rest := by
  rw [new_eq_cursorAfter_nil]
  simpa using consumeN_cursorAfter_general pre [] rest

theorem scanState_snoc_pos (ys : List Char) (x : Char) :
    ((scanState (ys ++ [x])).1, (scanState (ys ++ [x])).2.1) = posAfter ys := by
  rw [scanState_append]
  exact bumpPos_foldl ys (1, 0, EOF_CHAR)

/-!
## The pure runner listRun and the take_while loops
-/

theorem listRun_append {σ : Type} (p : σ → Char → Bool × σ) :
    ∀ (xs : List Char) (s : σ), (listRun p s xs).1 ++ (listRun p s xs).2 = xs := by
  intro xs
  induction xs with
  | nil => intro s; rfl
  | cons x l ih =>
    intro s
    by_cases hb : (p s x).1 = true
    · simp [listRun, hb, ih]
    · simp [listRun, hb]

theorem takeWhileM_cursorAfter {σ : Type} (p : σ → Char → Bool × σ) :
    ∀ (rest pre : List Char) (s : σ),
      (cursorAfter pre rest).takeWhileM p s =
        ((listRun p s rest).1,
         cursorAfter (pre ++ (listRun p s rest).1) (listRun p s rest).2) := by
  intro rest
  induction rest with
  | nil => intro pre s; simp [Cursor.takeWhileM, cursorAfter, takeWhileGo, listRun]
  | cons x xs ih =>
    intro pre s
    by_cases hb : (p s x).1 = true
    · have hstep : (cursorAfter pre (x :: xs)).takeWhileM p s =
          (x :: ((cursorAfter (pre ++ [x]) xs).takeWhileM p (p s x).2).1,
           ((cursorAfter (pre ++ [x]) xs).takeWhileM p (p s x).2).2) := by
        simp only [Cursor.takeWhileM, cursorAfter, takeWhileGo, hb, if_true]
        rw [scanState_append]
        simp [scanStep]
      rw [hstep, ih (pre ++ [x]) ((p s x).2)]
      simp [listRun, hb, List.append_assoc]
    · have hstep : (cursorAfter pre (x :: xs)).takeWhileM p s =
          ([], cursorAfter pre (x :: xs)) := by
        simp [Cursor.takeWhileM, cursorAfter, takeWhileGo, hb]
      rw [hstep]
      simp [listRun, hb]

theorem listRun_pure (q : Char → Bool) : ∀ (xs : List Char),
    listRun (fun (_ : Unit) ch => (q ch, ())) () xs = (xs.takeWhile q, xs.dropWhile q) := by
  intro xs
  induction xs with
  | nil => rfl
  | cons x l ih =>
    by_cases hb : q x = true
    · simp [listRun, hb, ih, List.takeWhile_cons, List.dropWhile_cons]
    · simp [listRun, hb, List.takeWhile_cons, List.dropWhile_cons]

theorem take_while_cursorAfter (q : Char → Bool) (rest pre : List Char) :
    (cursorAfter pre rest).take_while q =
      (rest.takeWhile q, cursorAfter (pre ++ rest.takeWhile q) (rest.dropWhile q)) := by
  have h := takeWhileM_cursorAfter (fun (_ : Unit) ch => (q ch, ())) rest pre ()
  rw [listRun_pure q rest] at h
  exact h

theorem takeWhileGo_fst_eq_listRun {σ : Type} (p : σ → Char → Bool × σ) :
    ∀ (l : List Char) (s : σ) (line col : Nat) (prev : Char),
      (takeWhileGo p s l line col prev).1 = (listRun p s l).1 := by
  intro l
  induction l with
  | nil => intro s line col prev; rfl
  | cons x xs ih =>
    intro s line col prev
    by_cases hb : (p s x).1 = true
    · simp [takeWhileGo, listRun, hb, ih]
    · simp [takeWhileGo, listRun, hb]

theorem takeWhileM_fst (c : Cursor) {σ : Type} (p : σ → Char → Bool × σ) (s : σ) :
    (c.takeWhileM p s).1 = (listRun p s c.input).1 :=
  takeWhileGo_fst_eq_listRun p c.input s c.line c.col c.prev

theorem take_while_fst (c : Cursor) (q : Char → Bool) :
    (c.take_while q).1 = c.input.takeWhile q := by
  rw [Cursor.take_while, takeWhileM_fst]
  rw [listRun_pure q c.input]

/-!
## The escaped-string run
-/

theorem escRun_quote_escaped : ∀ (xs : List Char) (e : Bool) (i : Nat),
    ((listRun escPred e xs).1)[i]? = some '"' →
      (if i = 0 then e = true else ((listRun escPred e xs).1)[i - 1]? = some '\\') := by
  intro xs
  induction xs with
  | nil => intro e i h; simp [listRun] at h
  | cons x l ih =>
    intro e i h
    by_cases hb : (escPred e x).1 = true
    · simp only [listRun, hb, if_true] at h ⊢
      cases i with
      | zero =>
        simp only [List.getElem?_cons_zero, Option.some.injEq] at h
        subst h
        simp only [escPred, Bool.or_eq_true, decide_eq_true_eq] at hb
        rcases hb with he | hne
        · simpa using he
        · exact absurd rfl hne
      | succ j =>
        simp only [List.getElem?_cons_succ] at h
        have hih := ih (escPred e x).2 j h
        simp only [Nat.add_sub_cancel]
        cases j with
        | zero =>
          simpa [escPred] using hih
        | succ k =>
          simp only [Nat.succ_ne_zero, if_neg, ite_false] at hih
          simpa [List.getElem?_cons_succ] using hih
    · simp only [listRun, hb, if_false, Bool.false_eq_true, ite_false] at h
      simp at h

theorem escRun_maximal : ∀ (xs : List Char) (e : Bool) (x : Char),
    ((listRun escPred e xs).2)[0]? = some x →
      x = '"' ∧ (((listRun escPred e xs).1 = []) → e = false) ∧
      (∀ c, ((listRun escPred e xs).1).getLast? = some c → c ≠ '\\') := by
  intro xs
  induction xs with
  | nil => intro e x h; simp [listRun] at h
  | cons y l ih =>
    intro e x h
    by_cases hb : (escPred e y).1 = true
    · simp only [listRun, hb, if_true] at h ⊢
      obtain ⟨hx, hre, hlast⟩ := ih (escPred e y).2 x h
      refine ⟨hx, by simp, ?_⟩
      intro c hc
      rcases hr : (listRun escPred (escPred e y).2 l).1 with _ | ⟨z, zs⟩
      · have he : (escPred e y).2 = false := hre hr
        simp only [escPred, decide_eq_false_iff_not] at he
        rw [hr] at hc
        simp only [List.getLast?_singleton, Option.some.injEq] at hc
        subst hc
        exact he
      · rw [hr, List.getLast?_cons_cons] at hc
        exact hlast c (by rw [hr]; exact hc)
    · simp only [listRun, hb, if_false, Bool.false_eq_true, ite_false] at h ⊢
      simp only [List.getElem?_cons_zero, Option.some.injEq] at h
      subst h
      simp only [escPred, Bool.or_eq_true, decide_eq_true_eq, not_or, Bool.not_eq_true,
        not_not] at hb
      exact ⟨hb.2, fun _ => hb.1, fun c hc => by simp at hc⟩

/-!
## The number run
-/

theorem numPred_digit {ch : Char} (h : ch.isDigit = true) (s : Bool) :
    numPred s ch = (true, s) := by
  simp [numPred, h]

theorem numPred_dot_new : numPred false '.' = (true, true) := by decide

theorem numPred_rejected {ch : Char} {s : Bool} (h1 : ch.isDigit = false)
    (h2 : ¬(ch = '.' ∧ s = false)) : numPred s ch = (false, s) := by
  simp [numPred, h1, h2]

theorem digit_ne_dot {ch : Char} (h : ch.isDigit = true) : ch ≠ '.' := by
  intro he
  subst he
  exact absurd h (by decide)

theorem numRun_spec : ∀ (xs : List Char) (s : Bool),
    (∀ ch ∈ (listRun numPred s xs).1, ch.isDigit = true ∨ ch = '.') ∧
    ((listRun numPred s xs).1).countP (fun ch => decide (ch = '.'))
        ≤ (if s then 0 else 1) ∧
    (∀ x, ((listRun numPred s xs).2)[0]? = some x →
      x.isDigit = false ∧ (x = '.' → s = true ∨
        ((listRun numPred s xs).1).countP (fun ch => decide (ch = '.')) = 1)) := by
  intro xs
  induction xs with
  | nil =>
    intro s
    refine ⟨by simp [listRun], by simp [listRun], ?_⟩
    intro x h
    simp [listRun] at h
  | cons y l ih =>
    intro s
    by_cases hd : y.isDigit = true
    · have hp := numPred_digit hd s
      obtain ⟨ihm, ihc, ihr⟩ := ih s
      constructor
      · intro ch hch
        simp only [listRun, hp, if_true] at hch
        rcases List.mem_cons.mp hch with rfl | hm
        · exact Or.inl hd
        · exact ihm ch hm
      constructor
      · simp only [listRun, hp, if_true, List.countP_cons]
        have : (decide (y = '.')) = false := by
          simp [digit_ne_dot hd]
        rw [this]
        simpa using ihc
      · intro x hx
        simp only [listRun, hp, if_true] at hx
        obtain ⟨hxd, hxdot⟩ := ihr x hx
        refine ⟨hxd, fun hxe => ?_⟩
        rcases hxdot hxe with hs | hc
        · exact Or.inl hs
        · right
          simp only [listRun, hp, if_true, List.countP_cons]
          have : (decide (y = '.')) = false := by simp [digit_ne_dot hd]
          rw [this]
          simpa using hc
    · by_cases hdot : y = '.' ∧ s = false
      · obtain ⟨rfl, rfl⟩ := hdot
        have hp := numPred_dot_new
        obtain ⟨ihm, ihc, ihr⟩ := ih true
        constructor
        · intro ch hch
          simp only [listRun, hp, if_true] at hch
          rcases List.mem_cons.mp hch with rfl | hm
          · exact Or.inr rfl
          · exact ihm ch hm
        constructor
        · simp only [listRun, hp, if_true, List.countP_cons]
          simp only [if_pos rfl] at ihc
          have h0 : (listRun numPred true l).1.countP (fun ch => decide (ch = '.')) = 0 :=
            Nat.le_zero.mp ihc
          simp [h0]
        · intro x hx
          simp only [listRun, hp, if_true] at hx
          obtain ⟨hxd, _⟩ := ihr x hx
          refine ⟨hxd, fun _ => Or.inr ?_⟩
          simp only [listRun, hp, if_true, List.countP_cons]
          simp only [if_pos rfl] at ihc
          have h0 : (listRun numPred true l).1.countP (fun ch => decide (ch = '.')) = 0 :=
            Nat.le_zero.mp ihc
          simp [h0]
      · have hp := numPred_rejected (Bool.eq_false_iff.mpr (fun hh => hd hh)) hdot
        constructor
        · intro ch hch
          simp [listRun, hp] at hch
        constructor
        · simp [listRun, hp]
        · intro x hx
          simp [listRun, hp] at hx
          subst hx
          refine ⟨Bool.eq_false_iff.mpr (fun hh => hd hh), fun hxe => ?_⟩
          left
          by_contra hs
          exact hdot ⟨hxe, Bool.eq_false_iff.mpr hs⟩

/-!
## The string scan on a cursorAfter state
-/

theorem string_cursorAfter_unterminated (pre rest : List Char)
    (h : ((listRun escPred false rest).2)[0]? ≠ some '"') :
    (cursorAfter pre rest).string =
      (Token.unexpected
        (cursorAfter (pre ++ (listRun escPred false rest).1) (listRun escPred false rest).2).line
        ((cursorAfter (pre ++ (listRun escPred false rest).1) (listRun escPred false rest).2).col
          + 1),
       cursorAfter (pre ++ (listRun escPred false rest).1) (listRun escPred false rest).2) := by
  simp only [Cursor.string]
  rw [takeWhileM_cursorAfter escPred rest pre false]
  have hcond : (cursorAfter (pre ++ (listRun escPred false rest).1)
      (listRun escPred false rest).2).peek ≠ some '"' := by
    simpa [Cursor.peek, cursorAfter, List.head?_eq_getElem?] using h
  rw [if_pos hcond]

theorem string_cursorAfter_terminated (pre rest rest'' : List Char)
    (h : (listRun escPred false rest).2 = '"' :: rest'') :
    (cursorAfter pre rest).string =
      (Token.string (String.mk (listRun escPred false rest).1),
       cursorAfter (pre ++ (listRun escPred false rest).1 ++ ['"']) rest'') := by
  simp only [Cursor.string]
  rw [takeWhileM_cursorAfter escPred rest pre false]
  have hcond : ¬ ((cursorAfter (pre ++ (listRun escPred false rest).1)
      (listRun escPred false rest).2).peek ≠ some '"') := by
    simp [Cursor.peek, cursorAfter, h]
  rw [if_neg hcond]
  rw [h, next_cursorAfter]

theorem scanState_pos_of_ne_nil (xs : List Char) (h : xs ≠ []) :
    ((scanState xs).1, (scanState xs).2.1) = posAfter xs.dropLast := by
  conv_lhs => rw [← List.dropLast_append_getLast h]
  exact scanState_snoc_pos xs.dropLast (xs.getLast h)

/-!
## The unknown-character path and the decimal parse
-/

theorem dispatch_unknown (fc : Char) (c1 : Cursor)
    (hw : rustIsWhitespace fc = false)
    (hmem : fc ∉ ['(', ')', '{', '}', ',', '.', '-', '+', ';', '*', '!', '=', '<', '>', '/', '"'])
    (hd : fc.isDigit = false) (ha : is_alpha fc = false) :
    dispatch fc c1 = (.unknown, c1) := by
  have m : ∀ ch ∈ ['(', ')', '{', '}', ',', '.', '-', '+', ';', '*', '!', '=', '<', '>', '/', '"'],
      ¬ fc = ch := fun ch hch he => hmem (he ▸ hch)
  simp only [dispatch]
  rw [if_neg (by simp [hw]), if_neg (m '(' (by decide)), if_neg (m ')' (by decide)),
    if_neg (m '{' (by decide)), if_neg (m '}' (by decide)), if_neg (m ',' (by decide)),
    if_neg (m '.' (by decide)), if_neg (m '-' (by decide)), if_neg (m '+' (by decide)),
    if_neg (m ';' (by decide)), if_neg (m '*' (by decide)), if_neg (m '!' (by decide)),
    if_neg (m '=' (by decide)), if_neg (m '<' (by decide)), if_neg (m '>' (by decide)),
    if_neg (m '/' (by decide)), if_neg (m '"' (by decide)),
    if_neg (by simp [hd]), if_neg (by simp [ha])]

theorem tokenize_unknown_char (ch : Char)
    (hw : rustIsWhitespace ch = false)
    (hmem : ch ∉ ['(', ')', '{', '}', ',', '.', '-', '+', ';', '*', '!', '=', '<', '>', '/', '"'])
    (hd : ch.isDigit = false) (ha : is_alpha ch = false) :
    tokenize [ch] = [Token.unknown] := by
  show tokenizeLoop 2 (Cursor.new [ch]) = [Token.unknown]
  have hadv : (Cursor.new [ch]).advance_token = (Token.unknown, ((Cursor.new [ch]).next).2) := by
    rw [advance_token_cons (Cursor.new [ch]) ch [] rfl,
      dispatch_unknown ch _ hw hmem hd ha]
  simp only [tokenizeLoop, hadv]
  rw [if_neg (fun hx => Token.noConfusion hx)]
  have h2 := advance_token_eof_of_nil ((Cursor.new [ch]).next).2 rfl
  rw [if_pos h2.1]

theorem parseDecimal?_isSome {s : List Char}
    (h1 : ∀ ch ∈ s, ch.isDigit = true ∨ ch = '.')
    (h2 : s.countP (fun ch => decide (ch = '.')) ≤ 1)
    (h3 : s.any Char.isDigit = true) :
    ∃ v, parseDecimal? s = some v := by
  have hcond : (s.all fun ch => ch.isDigit || decide (ch = '.')) = true
      ∧ s.countP (fun ch => decide (ch = '.')) ≤ 1
      ∧ (s.any Char.isDigit) = true := by
    refine ⟨?_, h2, h3⟩
    rw [List.all_eq_true]
    intro ch hch
    rcases h1 ch hch with hdig | he
    · simp [hdig]
    · simp [he]
  unfold parseDecimal?
  rw [if_pos hcond]
  exact ⟨_, rfl⟩

/-!
## Where identifier tokens come from
-/

theorem tokenizeLoop_mem_advance : ∀ (n : Nat) (c : Cursor) (t : Token),
    t ∈ tokenizeLoop n c → ∃ c' : Cursor, (c'.advance_token).1 = t := by
  intro n
  induction n with
  | zero => intro c t h; simp [tokenizeLoop] at h
  | succ n ih =>
    intro c t h
    simp only [tokenizeLoop] at h
    by_cases he : (c.advance_token).1 = .eof
    · rw [if_pos he] at h
      simp at h
    · rw [if_neg he] at h
      rcases List.mem_cons.mp h with rfl | hm
      · exact ⟨c, rfl⟩
      · exact ih _ _ hm

theorem advance_token_ident {c : Cursor} {s : String}
    (h : (c.advance_token).1 = .ident s) :
    ∃ fc run, s = String.mk (fc :: run) ∧ is_alpha fc = true ∧
      (∀ ch ∈ run, is_alphanumeric ch = true) ∧ s ∉ reservedWords := by
  rcases hci : c.input with _ | ⟨x, xs⟩
  · rw [(advance_token_eof_of_nil c hci).1] at h
    exact absurd h (fun hx => Token.noConfusion hx)
  · rw [advance_token_cons c x xs hci] at h
    obtain ⟨hal, hdisp⟩ := dispatch_fst_ident h
    rw [hdisp] at h
    have hfst : (((c.next).2).identifier x).1
        = keywordMatch (String.mk (x :: ((c.next).2).input.takeWhile is_alphanumeric)) := by
      simp only [Cursor.identifier]
      rw [take_while_fst]
    rw [hfst] at h
    obtain ⟨hs, hmem⟩ := keywordMatch_eq_ident h
    refine ⟨x, ((c.next).2).input.takeWhile is_alphanumeric, hs, hal, ?_, ?_⟩
    · intro ch hch
      exact List.mem_takeWhile_imp hch
    · rw [hs]
      exact hmem

/-!
## The claims
-/

/-- C1: whenever the string scan does not find a closing quote (the
remainder after the maximal escaped run does not start with `"`), it emits
exactly an unterminated-construct token whose line is the line of the last
consumed character and whose column is that character's 1-based column plus
one — the position immediately after the last character of the unterminated
content, column counted from the start of that character's line — and the
cursor's remaining input is exactly the remainder of the run: nothing
further is consumed.  `pre` is the input already consumed (it contains at
least the opening quote, hence is nonempty). -/
theorem claim_C1_unterminated_string (pre rest : List Char) (hpre : pre ≠ [])
    (h : ((listRun escPred false rest).2)[0]? ≠ some '"') :
    (cursorAfter pre rest).string =
      (Token.unexpected
        (posAfter ((pre ++ (listRun escPred false rest).1).dropLast)).1
        ((posAfter ((pre ++ (listRun escPred false rest).1).dropLast)).2 + 1),
       cursorAfter (pre ++ (listRun escPred false rest).1) (listRun escPred false rest).2) := by
  rw [string_cursorAfter_unterminated pre rest h]
  have hne : pre ++ (listRun escPred false rest).1 ≠ [] := by
    intro hnil
    exact hpre (List.append_eq_nil.mp hnil).1
  have hp := scanState_pos_of_ne_nil (pre ++ (listRun escPred false rest).1) hne
  have h1 : (scanState (pre ++ (listRun escPred false rest).1)).1
      = (posAfter ((pre ++ (listRun escPred false rest).1).dropLast)).1 :=
    congrArg Prod.fst hp
  have h2 : (scanState (pre ++ (listRun escPred false rest).1)).2.1
      = (posAfter ((pre ++ (listRun escPred false rest).1).dropLast)).2 :=
    congrArg Prod.snd hp
  simp only [cursorAfter]
  rw [h1, h2]

/-- Witness for C1 at the input `"ab` (opening quote consumed, then the
whole rest scanned without finding a closing quote): the reported position
is line 1, column 4. -/
theorem claim_C1_unterminated_string_witness :
    (cursorAfter ['"'] ['a', 'b']).string
      = (Token.unexpected 1 4, cursorAfter ['"', 'a', 'b'] []) := by
  rw [claim_C1_unterminated_string ['"'] ['a', 'b'] (by decide) (by decide)]
  decide

/-- C2, counterexample: the claim says the cursor's line/column describe,
at every point of a scan, the position of the character about to be
consumed next (`posAfter` of the consumed prefix).  After consuming `'a'`
from `"ab"` the next character is at column 2 but the cursor column is 1;
after consuming a newline the next character is at line 2 but the cursor
line is still 1. -/
theorem claim_C2_position_counterexample :
    ((((Cursor.new ['a', 'b']).consumeN 1).line,
      ((Cursor.new ['a', 'b']).consumeN 1).col) ≠ posAfter ['a']) ∧
    ((((Cursor.new ['\n', 'a']).consumeN 1).line,
      ((Cursor.new ['\n', 'a']).consumeN 1).col) ≠ posAfter ['\n']) := by
  decide

/-- C2, amended: line/column are updated only by the single consume
primitive, but they describe the previously consumed character, with the
newline adjustment applied lazily: starting from (1, 0), the column is
incremented once per character consumed, and the line increment/column
reset happen at the next consumption after a newline.  Consequently the
position of the character about to be consumed next is not (line, col)
itself but `nextPos` — (line+1, 1) if the previous character was a newline,
else (line, col+1) — and with that adjustment the tracking is exact:
consuming `pre` through `Cursor.next` from `Cursor.new` reaches state
`cursorAfter pre rest`, whose `nextPos` is the honest 1-based position
`posAfter pre`, where `posAfter` resets the column to 1 after each newline
and otherwise increments it by one per character. -/
theorem claim_C2_position_amended (pre rest : List Char) :
    (Cursor.new (pre ++ rest)).consumeN pre.length = cursorAfter pre rest ∧
    (cursorAfter pre rest).nextPos = posAfter pre ∧
    (cursorAfter pre rest).input = rest ∧
    (∀ ch, posAfter (pre ++ [ch]) =
      if ch = '\n' then ((posAfter pre).1 + 1, 1)
      else ((posAfter pre).1, (posAfter pre).2 + 1)) ∧
    posAfter [] = (1, 1) :=
  ⟨consumeN_cursorAfter pre rest, nextPos_cursorAfter pre rest, rfl,
   fun ch => posAfter_append pre ch, rfl⟩

/-- C3: tokenize is total — the structurally recursive loop stabilizes at
any fuel beyond the input length, so the iteration always reaches the EOF
sentinel — and malformed input yields an ordinary diagnostic token in the
output: any single character that matches no lexical rule tokenizes to the
unknown token, and an unterminated string tokenizes to an
unterminated-construct token. -/
theorem claim_C3_total_no_failure :
    (∀ (input : List Char) (n : Nat), input.length < n →
      tokenizeLoop n (Cursor.new input) = tokenize input) ∧
    (∀ ch : Char, rustIsWhitespace ch = false →
      ch ∉ ['(', ')', '{', '}', ',', '.', '-', '+', ';', '*', '!', '=', '<', '>', '/', '"'] →
      ch.isDigit = false → is_alpha ch = false →
      tokenize [ch] = [Token.unknown]) ∧
    tokenize ['"', 'a', 'b'] = [Token.unexpected 1 4] ∧
    tokenize ['@'] = [Token.unknown] :=
  ⟨fun input n hn =>
      tokenizeLoop_fuel_irrelevant n (input.length + 1) (Cursor.new input) hn
        (Nat.lt_succ_self _),
   fun ch hw hmem hd ha => tokenize_unknown_char ch hw hmem hd ha,
   by decide, by decide⟩

/-- Witness for C3 at fuel 7 on input "ab" and at the unclassifiable
character `@`. -/
theorem claim_C3_total_no_failure_witness :
    tokenizeLoop 7 (Cursor.new ['a', 'b']) = tokenize ['a', 'b'] ∧
    tokenize ['#'] = [Token.unknown] :=
  ⟨claim_C3_total_no_failure.1 ['a', 'b'] 7 (by decide),
   claim_C3_total_no_failure.2.1 '#' (by decide) (by decide) (by decide) (by decide)⟩

/-- C4: the token sequence is finite and the scan terminates exactly when
the input is exhausted: on nonempty input every advance-and-classify call
consumes at least one character and does not signal EOF, on empty input it
signals EOF, the loop's result is independent of any sufficient fuel, and
the number of tokens is bounded by the input length. -/
theorem claim_C4_termination :
    (∀ c : Cursor, c.input ≠ [] →
      (c.advance_token).2.input.length < c.input.length ∧
        (c.advance_token).1 ≠ Token.eof) ∧
    (∀ c : Cursor, c.input = [] → (c.advance_token).1 = Token.eof) ∧
    (∀ (input : List Char) (n : Nat), input.length < n →
      tokenizeLoop n (Cursor.new input) = tokenize input) ∧
    (∀ input : List Char, (tokenize input).length ≤ input.length) :=
  ⟨fun c h => advance_token_lt c h,
   fun c h => (advance_token_eof_of_nil c h).1,
   fun input n hn =>
     tokenizeLoop_fuel_irrelevant n (input.length + 1) (Cursor.new input) hn
       (Nat.lt_succ_self _),
   fun input => tokenizeLoop_length_le (input.length + 1) (Cursor.new input)⟩

/-- Witness for C4 at the one-character input "a" and the empty input. -/
theorem claim_C4_termination_witness :
    ((Cursor.new ['a']).advance_token).2.input.length < (Cursor.new ['a']).input.length ∧
    ((Cursor.new []).advance_token).1 = Token.eof ∧
    tokenizeLoop 5 (Cursor.new ['a']) = tokenize ['a'] :=
  ⟨(claim_C4_termination.1 (Cursor.new ['a']) (by decide)).1,
   claim_C4_termination.2.1 (Cursor.new []) rfl,
   claim_C4_termination.2.2.1 ['a'] 5 (by decide)⟩

/-- C5: the EOF sentinel never appears in the output of tokenize, and the
empty input yields the empty token sequence. -/
theorem claim_C5_no_eof_token :
    (∀ input : List Char, Token.eof ∉ tokenize input) ∧ tokenize [] = [] :=
  ⟨fun input => tokenizeLoop_eof_not_mem (input.length + 1) (Cursor.new input), rfl⟩

/-- Witness for C5 at the input "a". -/
theorem claim_C5_no_eof_token_witness :
    Token.eof ∉ tokenize ['a'] ∧ tokenize [] = [] :=
  ⟨claim_C5_no_eof_token.1 ['a'], claim_C5_no_eof_token.2⟩

/-- C6: the number scan consumes, after the first digit, exactly the run
`(listRun numPred false rest).1`, leaving the remainder unconsumed for the
next token; the run splits the remaining input, contains only ASCII digits
and dots with at most one dot, and stops exactly at the first character
that is not a digit and is not an acceptable dot (a second dot ends the
run: if the stopping character is a dot, the run already holds one).  In
particular "1.2.3" tokenizes to the number 12/10 = 1.2 followed immediately
by a dot token and the number 3. -/
theorem claim_C6_single_decimal_point (pre rest : List Char) (fc : Char) :
    ((cursorAfter pre rest).number fc).2
        = cursorAfter (pre ++ (listRun numPred false rest).1) (listRun numPred false rest).2 ∧
    (listRun numPred false rest).1 ++ (listRun numPred false rest).2 = rest ∧
    (∀ ch ∈ (listRun numPred false rest).1, ch.isDigit = true ∨ ch = '.') ∧
    ((listRun numPred false rest).1).countP (fun ch => decide (ch = '.')) ≤ 1 ∧
    (∀ x, ((listRun numPred false rest).2)[0]? = some x →
      x.isDigit = false ∧ (x = '.' →
        ((listRun numPred false rest).1).countP (fun ch => decide (ch = '.')) = 1)) ∧
    tokenize "1.2.3".data
        = [Token.number (mkRat 12 10), Token.dot, Token.number (mkRat 3 1)] ∧
    (mkRat 12 10 : ℚ) = 1.2 ∧ (mkRat 3 1 : ℚ) = 3 := by
  refine ⟨?_, listRun_append numPred rest false,
    (numRun_spec rest false).1,
    by simpa using (numRun_spec rest false).2.1,
    ?_, by rfl, ?_, ?_⟩
  · simp only [Cursor.number]
    rw [takeWhileM_cursorAfter numPred rest pre false]
    cases parseDecimal? (fc :: (listRun numPred false rest).1) <;> rfl
  · intro x hx
    obtain ⟨hxd, hxdot⟩ := (numRun_spec rest false).2.2 x hx
    exact ⟨hxd, fun he => ((hxdot he).resolve_left (by simp))⟩
  · rw [Rat.mkRat_eq_div]; norm_num
  · rw [Rat.mkRat_eq_div]; norm_num

/-- Witness for C6 on the remaining input ".2.3" after the first digit: the
run is ".2", the remainder starts with the second dot, which is rejected
precisely because the run already contains a dot. -/
theorem claim_C6_single_decimal_point_witness :
    (listRun numPred false ['.', '2', '.', '3']).1
        ++ (listRun numPred false ['.', '2', '.', '3']).2 = ['.', '2', '.', '3'] ∧
    (('.').isDigit = false ∧ ('.' = '.' →
      ((listRun numPred false ['.', '2', '.', '3']).1).countP
        (fun ch => decide (ch = '.')) = 1)) :=
  ⟨(claim_C6_single_decimal_point ['1'] ['.', '2', '.', '3'] '1').2.1,
   (claim_C6_single_decimal_point ['1'] ['.', '2', '.', '3'] '1').2.2.2.2.1 '.' (by decide)⟩

/-- C7: in the string body run (started unescaped), a character equal to
`"` can occur only immediately after a backslash, the run is maximal (the
stopping character, if any, is an unescaped `"`: the run's last character
is not a backslash), and when the stopping quote exists the scan consumes
it and emits a string token whose payload is exactly the run — the
characters between the two quotes, kept verbatim, with both quotes
excluded.  The input `"a\"b"` yields the single payload `a\"b` with the
backslash retained. -/
theorem claim_C7_escaped_string_body (pre rest : List Char) :
    (listRun escPred false rest).1 ++ (listRun escPred false rest).2 = rest ∧
    (∀ i : Nat, ((listRun escPred false rest).1)[i]? = some '"' →
      0 < i ∧ ((listRun escPred false rest).1)[i - 1]? = some '\\') ∧
    (∀ x, ((listRun escPred false rest).2)[0]? = some x →
      x = '"' ∧ ∀ c, ((listRun escPred false rest).1).getLast? = some c → c ≠ '\\') ∧
    (((listRun escPred false rest).2)[0]? = some '"' →
      (cursorAfter pre rest).string =
        (Token.string (String.mk (listRun escPred false rest).1),
         cursorAfter (pre ++ (listRun escPred false rest).1 ++ ['"'])
           (((listRun escPred false rest).2).tail))) ∧
    tokenize ['"', 'a', '\\', '"', 'b', '"']
        = [Token.string (String.mk ['a', '\\', '"', 'b'])] := by
  refine ⟨listRun_append escPred rest false, ?_, ?_, ?_, by decide⟩
  · intro i hi
    have h := escRun_quote_escaped rest false i hi
    by_cases h0 : i = 0
    · rw [if_pos h0] at h
      exact absurd h (by simp)
    · rw [if_neg h0] at h
      exact ⟨Nat.pos_of_ne_zero h0, h⟩
  · intro x hx
    obtain ⟨hq, _, hlast⟩ := escRun_maximal rest false x hx
    exact ⟨hq, hlast⟩
  · intro hterm
    rcases hr : (listRun escPred false rest).2 with _ | ⟨z, t⟩
    · rw [hr] at hterm
      simp at hterm
    · rw [hr] at hterm
      simp only [List.getElem?_cons_zero, Option.some.injEq] at hterm
      subst hterm
      rw [string_cursorAfter_terminated pre rest t hr]
      rfl

/-- Witness for C7 on the body run of `a\"b"`: decomposition holds and the
interior quote (index 2) is preceded by a backslash. -/
theorem claim_C7_escaped_string_body_witness :
    (listRun escPred false ['a', '\\', '"', 'b', '"']).1
        ++ (listRun escPred false ['a', '\\', '"', 'b', '"']).2
        = ['a', '\\', '"', 'b', '"'] ∧
    (0 < 2 ∧ (listRun escPred false ['a', '\\', '"', 'b', '"']).1[2 - 1]? = some '\\') :=
  ⟨(claim_C7_escaped_string_body [] ['a', '\\', '"', 'b', '"']).1,
   (claim_C7_escaped_string_body [] ['a', '\\', '"', 'b', '"']).2.1 2 (by decide)⟩

/-- C8: identifier scanning is maximal-munch — the lexeme is the first
character followed by the longest run of ASCII letters, digits and
underscores, and the remainder (`dropWhile`) is left for the next token —
and keyword recognition is an exact match of the full completed lexeme
against the sixteen reserved words, never prefix-based: a lexeme not in the
reserved list always becomes an identifier carrying the full lexeme, and a
reserved lexeme never becomes an identifier.  "variable_2" yields the
single identifier "variable_2", and "printable" yields the identifier
"printable", not the print keyword. -/
theorem claim_C8_maximal_munch_exact_keywords (pre rest : List Char) (fc : Char) :
    (cursorAfter pre rest).identifier fc =
      (keywordMatch (String.mk (fc :: rest.takeWhile is_alphanumeric)),
       cursorAfter (pre ++ rest.takeWhile is_alphanumeric)
         (rest.dropWhile is_alphanumeric)) ∧
    (∀ id : String, id ∉ reservedWords → keywordMatch id = .ident id) ∧
    (∀ id : String, id ∈ reservedWords → ∀ s, keywordMatch id ≠ .ident s) ∧
    tokenize "variable_2".data = [Token.ident "variable_2"] ∧
    tokenize "printable".data = [Token.ident "printable"] := by
  refine ⟨?_, fun id hid => keywordMatch_of_not_mem hid,
    fun id hid s => keywordMatch_mem_ne_ident hid s, by decide, by decide⟩
  simp only [Cursor.identifier]
  rw [take_while_cursorAfter]

/-- Witness for C8: "print" is reserved and never an identifier,
"printable" is not reserved and stays an identifier. -/
theorem claim_C8_maximal_munch_exact_keywords_witness :
    keywordMatch "print" ≠ Token.ident "print" ∧
    keywordMatch "printable" = Token.ident "printable" :=
  ⟨(claim_C8_maximal_munch_exact_keywords [] [] 'a').2.2.1 "print" (by decide) "print",
   (claim_C8_maximal_munch_exact_keywords [] [] 'a').2.1 "printable" (by decide)⟩

/-- C9: for every cursor state, when the number scan is entered with a
first digit, parsing the collected lexeme never fails — the lexeme starts
with a digit and contains at most one dot, so the modelled f64 parse
succeeds — hence the guarded unknown fallback is unreachable and the scan
always emits a number token. -/
theorem claim_C9_number_parse_never_fails (c : Cursor) (fc : Char)
    (h : fc.isDigit = true) :
    ∃ v, (c.number fc).1 = Token.number v := by
  have spec := numRun_spec c.input false
  have hrun : (c.takeWhileM numPred false).1 = (listRun numPred false c.input).1 :=
    takeWhileM_fst c numPred false
  have hall : ∀ ch ∈ fc :: (c.takeWhileM numPred false).1, ch.isDigit = true ∨ ch = '.' := by
    intro ch hch
    rcases List.mem_cons.mp hch with rfl | hm
    · exact Or.inl h
    · rw [hrun] at hm
      exact spec.1 ch hm
  have hcount : (fc :: (c.takeWhileM numPred false).1).countP
      (fun ch => decide (ch = '.')) ≤ 1 := by
    have hfc : fc ≠ '.' := digit_ne_dot h
    rw [List.countP_cons, hrun]
    simp only [hfc]
    simpa using spec.2.1
  have hany : (fc :: (c.takeWhileM numPred false).1).any Char.isDigit = true := by
    simp [h]
  obtain ⟨v, hv⟩ := parseDecimal?_isSome hall hcount hany
  refine ⟨v, ?_⟩
  simp only [Cursor.number]
  rw [hv]

/-- Witness for C9 on the cursor over "23" with first digit '1'. -/
theorem claim_C9_number_parse_never_fails_witness :
    ∃ v, ((Cursor.new ['2', '3']).number '1').1 = Token.number v :=
  claim_C9_number_parse_never_fails (Cursor.new ['2', '3']) '1' (by decide)

/-- C10: every identifier token produced by tokenize carries a nonempty
payload whose first character is an ASCII letter or underscore, whose
remaining characters are ASCII letters, digits or underscores, and which is
not one of the sixteen reserved words. -/
theorem claim_C10_identifier_invariant (input : List Char) (s : String)
    (h : Token.ident s ∈ tokenize input) :
    ∃ fc run, s = String.mk (fc :: run) ∧ is_alpha fc = true ∧
      (∀ ch ∈ run, is_alphanumeric ch = true) ∧ s ∉ reservedWords := by
  obtain ⟨c', hc'⟩ := tokenizeLoop_mem_advance (input.length + 1) (Cursor.new input) _ h
  exact advance_token_ident hc'

/-- Witness for C10 on the input "x". -/
theorem claim_C10_identifier_invariant_witness :
    ∃ fc run, "x" = String.mk (fc :: run) ∧ is_alpha fc = true ∧
      (∀ ch ∈ run, is_alphanumeric ch = true) ∧ "x" ∉ reservedWords :=
  claim_C10_identifier_invariant ['x'] "x" (by decide)

end Lox
